import Mathlib

/-!
Verification of the grs core (tokenizer, document model, checker and fixer)
against its specification.  The Rust sources `crates/grs/src/tokenizer.rs`,
`crates/grs/src/linter.rs` and `crates/grs/src/registry.rs` are shallowly
embedded below; text is modelled as `List Char`, with byte offsets computed
through the UTF-8 size of each character.  The helpers that the crate imports
from the external `grac` library (`split_punctuation`, `is_greek_word`,
`APOSTROPHES`) are not part of this repository and are modelled from the
specification, as marked in their doc comments.
-/

namespace Grs

/-- Rust `char::is_whitespace`: the Unicode `White_Space` property, given by
its 25 code points. -/
def rustIsWhitespace (c : Char) : Bool :=
  [0x9, 0xA, 0xB, 0xC, 0xD, 0x20, 0x85, 0xA0, 0x1680,
   0x2000, 0x2001, 0x2002, 0x2003, 0x2004, 0x2005, 0x2006, 0x2007,
   0x2008, 0x2009, 0x200A, 0x2028, 0x2029, 0x202F, 0x205F, 0x3000].contains c.toNat

/-- Byte length of a character sequence (Rust `str::len` on the slice holding
those characters). -/
def utf8Len (s : List Char) : Nat :=
  (s.map Char.utf8Size).sum

/-- `TokenKind` from `tokenizer.rs`. -/
inductive TokenKind where
  | Whitespace
  | Word
  | GreekWord
  | Punctuation
deriving DecidableEq

/-- `TextRange` from `range.rs`: a half-open byte interval.  The `end` field of
the source is called `stop` here because `end` is a Lean keyword. -/
structure TextRange where
  start : Nat
  stop : Nat
deriving DecidableEq

/-- `Token` from `tokenizer.rs`.  The source stores `offset` as a `u32`; the
conversion check performed by `Token::new` is modelled by `Token.new` below. -/
structure Token where
  index : Nat
  text : List Char
  offset : Nat
  kind : TokenKind
deriving DecidableEq

/-- `Token::range`: start and end byte of the token. -/
def Token.range (t : Token) : TextRange :=
  ⟨t.offset, t.offset + utf8Len t.text⟩

/-- `SplitKind` from `tokenizer.rs`. -/
inductive SplitKind where
  | Word
  | Whitespace
deriving DecidableEq

/-- The loop body of `split_whitespace` from `tokenizer.rs`: each step takes
the maximal run of characters agreeing with the first character's whitespace
class.  The Rust iterator advances a byte offset; here the remaining input is
passed directly, with a fuel argument bounding the number of steps (each step
consumes at least one character, so fuel `s.length` is always enough). -/
def splitWhitespaceAux : Nat → List Char → List (SplitKind × List Char)
  | 0, _ => []
  | _ + 1, [] => []
  | fuel + 1, c :: cs =>
    let is_ws := rustIsWhitespace c
    let run := c :: cs.takeWhile (fun x => rustIsWhitespace x == is_ws)
    let rest := cs.dropWhile (fun x => rustIsWhitespace x == is_ws)
    (if is_ws then SplitKind.Whitespace else SplitKind.Word, run)
      :: splitWhitespaceAux fuel rest

/-- `split_whitespace` from `tokenizer.rs`. -/
def split_whitespace (s : List Char) : List (SplitKind × List Char) :=
  splitWhitespaceAux s.length s

/-- Modelled from the spec: Rust `char::is_alphabetic` as used by the external
`grac::split_punctuation`; digits are never alphabetic.  ASCII letters and the
Greek and Greek-extended blocks are the alphabetic characters relevant to this
development. -/
def is_alphabetic (c : Char) : Bool :=
  (0x41 ≤ c.toNat && c.toNat ≤ 0x5A) || (0x61 ≤ c.toNat && c.toNat ≤ 0x7A) ||
  (0x370 ≤ c.toNat && c.toNat ≤ 0x3FF) || (0x1F00 ≤ c.toNat && c.toNat ≤ 0x1FFF)

/-- Modelled from the spec: a character of the Greek alphabet (used by the
external `grac::is_greek_word`). -/
def isGreekChar (c : Char) : Bool :=
  (0x370 ≤ c.toNat && c.toNat ≤ 0x3FF) || (0x1F00 ≤ c.toNat && c.toNat ≤ 0x1FFF)

/-- Modelled from the spec: the external `grac::is_greek_word`, true when every
character of the word belongs to the Greek alphabet. -/
def is_greek_word (s : List Char) : Bool :=
  s.all isGreekChar

/-- Modelled from the spec: the external `grac::constants::APOSTROPHES`, the
apostrophe-class characters (U+0027, U+2019, U+1FBD, U+02BC). -/
def APOSTROPHES : List Char :=
  [Char.ofNat 0x27, Char.ofNat 0x2019, Char.ofNat 0x1FBD, Char.ofNat 0x2BC]

/-- Modelled from the spec: the external `grac::split_punctuation`, splitting a
non-whitespace run into a maximal non-alphabetic prefix, a central span from
the first to the last alphabetic character, and a maximal non-alphabetic
suffix. -/
def split_punctuation (s : List Char) : List Char × List Char × List Char :=
  let p := fun c => !is_alphabetic c
  let lpunct := s.takeWhile p
  let rest := s.dropWhile p
  let word := (rest.reverse.dropWhile p).reverse
  let rpunct := (rest.reverse.takeWhile p).reverse
  (lpunct, word, rpunct)

/-- The token-emitting loop of `tokenize` from `tokenizer.rs`, walking the
chunks produced by `split_whitespace` while tracking the next token index and
the current byte offset (`end` in the source).  A whitespace chunk becomes one
token; a word chunk is split by `split_punctuation` into up to three tokens. -/
def tokenizeChunks : List (SplitKind × List Char) → Nat → Nat → List Token
  | [], _, _ => []
  | (SplitKind.Whitespace, slice) :: rest, index, start =>
    ⟨index, slice, start, TokenKind.Whitespace⟩
      :: tokenizeChunks rest (index + 1) (start + utf8Len slice)
  | (SplitKind.Word, slice) :: rest, index, start =>
    let lwr := split_punctuation slice
    let lpunct := lwr.1
    let word := lwr.2.1
    let rpunct := lwr.2.2
    let t1 : List Token :=
      if lpunct = [] then [] else [⟨index, lpunct, start, TokenKind.Punctuation⟩]
    let i2 := index + t1.length
    let wkind := if is_greek_word word then TokenKind.GreekWord else TokenKind.Word
    let t2 : List Token :=
      if word = [] then [] else [⟨i2, word, start + utf8Len lpunct, wkind⟩]
    let i3 := i2 + t2.length
    let t3 : List Token :=
      if rpunct = [] then []
      else [⟨i3, rpunct, start + utf8Len lpunct + utf8Len word, TokenKind.Punctuation⟩]
    t1 ++ t2 ++ t3 ++ tokenizeChunks rest (i3 + t3.length) (start + utf8Len slice)

/-- `Doc` from `tokenizer.rs`. -/
structure Doc where
  src : List Char
  tokens : List Token
deriving DecidableEq

/-- `tokenize` from `tokenizer.rs`. -/
def tokenize (s : List Char) : Doc :=
  ⟨s, tokenizeChunks (split_whitespace s) 0 0⟩

/-- The index walk of `Doc::next_token_not_whitespace`: starting from `idx`,
look up tokens until a non-whitespace one is found or the lookup fails.  The
fuel bounds the walk; `tokens.length` is always enough. -/
def findNonWsFrom (tokens : List Token) : Nat → Nat → Option Token
  | 0, _ => none
  | fuel + 1, idx =>
    match tokens[idx]? with
    | none => none
    | some t =>
      if t.kind = TokenKind.Whitespace then findNonWsFrom tokens fuel (idx + 1)
      else some t

/-- `Doc::next_token_not_whitespace` from `tokenizer.rs`. -/
def Doc.next_token_not_whitespace (doc : Doc) (token : Token) : Option Token :=
  findNonWsFrom doc.tokens doc.tokens.length (token.index + 1)

/-- `Doc::is_abbreviation_or_ends_with_dot` from `tokenizer.rs`. -/
def Doc.is_abbreviation_or_ends_with_dot (doc : Doc) (token : Token) : Bool :=
  match doc.next_token_not_whitespace token with
  | some ntoken =>
    if ntoken.kind = TokenKind.Punctuation then
      match ntoken.text.head? with
      | some c => ['.', '…'].contains c || APOSTROPHES.contains c
      | none => false
    else false
  | none => false

/-- Concatenation of the texts of a token sequence. -/
def tokensText (ts : List Token) : List Char :=
  (ts.map Token.text).flatten

/-- The ranges of a token sequence chain contiguously from position `pos`:
each token starts where the previous one ended. -/
def chainedFrom : Nat → List Token → Bool
  | _, [] => true
  | pos, t :: ts => (t.range.start == pos) && chainedFrom t.range.stop ts

/-- End position of a chained token sequence started at `pos`. -/
def chainEnd : Nat → List Token → Nat
  | pos, [] => pos
  | _, t :: ts => chainEnd t.range.stop ts

theorem utf8Len_append (a b : List Char) :
    utf8Len (a ++ b) = utf8Len a + utf8Len b := by
  simp [utf8Len]

theorem tokensText_append (a b : List Token) :
    tokensText (a ++ b) = tokensText a ++ tokensText b := by
  simp [tokensText]

theorem tokensText_cons (t : Token) (ts : List Token) :
    tokensText (t :: ts) = t.text ++ tokensText ts := by
  simp [tokensText]

theorem chainEnd_append (a b : List Token) (pos : Nat) :
    chainEnd pos (a ++ b) = chainEnd (chainEnd pos a) b := by
  induction a generalizing pos with
  | nil => simp [chainEnd]
  | cons t ts ih => simp [chainEnd, ih]

theorem chainedFrom_append (a b : List Token) (pos : Nat) :
    chainedFrom pos (a ++ b)
      = (chainedFrom pos a && chainedFrom (chainEnd pos a) b) := by
  induction a generalizing pos with
  | nil => simp [chainedFrom, chainEnd]
  | cons t ts ih => simp [chainedFrom, chainEnd, ih, Bool.and_assoc]

theorem piece_tokensText (x : List Char) (i off : Nat) (k : TokenKind) :
    tokensText (if x = [] then [] else [⟨i, x, off, k⟩]) = x := by
  by_cases h : x = [] <;> simp [h, tokensText]

theorem piece_chainedFrom (x : List Char) (i : Nat) (k : TokenKind) (pos : Nat) :
    chainedFrom pos (if x = [] then [] else [⟨i, x, pos, k⟩]) = true := by
  by_cases h : x = [] <;> simp [h, chainedFrom, Token.range]

theorem piece_chainEnd (x : List Char) (i : Nat) (k : TokenKind) (pos : Nat) :
    chainEnd pos (if x = [] then [] else [⟨i, x, pos, k⟩]) = pos + utf8Len x := by
  by_cases h : x = [] <;> simp [h, chainEnd, Token.range, utf8Len]

/-- The three pieces produced by `split_punctuation` concatenate back to the
input run. -/
theorem split_punctuation_join (s : List Char) :
    (split_punctuation s).1 ++ ((split_punctuation s).2.1 ++ (split_punctuation s).2.2)
      = s := by
  unfold split_punctuation
  have h1 : ((s.dropWhile (fun c => !is_alphabetic c)).reverse.dropWhile
        (fun c => !is_alphabetic c)).reverse
      ++ ((s.dropWhile (fun c => !is_alphabetic c)).reverse.takeWhile
        (fun c => !is_alphabetic c)).reverse
      = s.dropWhile (fun c => !is_alphabetic c) := by
    rw [← List.reverse_append, List.takeWhile_append_dropWhile, List.reverse_reverse]
  simpa [h1] using List.takeWhile_append_dropWhile (fun c => !is_alphabetic c) s

theorem dropWhile_length_le (p : α → Bool) (l : List α) :
    (l.dropWhile p).length ≤ l.length := by
  induction l with
  | nil => simp [List.dropWhile]
  | cons a l ih =>
    by_cases h : p a <;> simp [List.dropWhile, h] <;> omega

/-- With enough fuel, the chunks of `split_whitespace` concatenate back to the
input text. -/
theorem splitWhitespaceAux_join :
    ∀ fuel s, s.length ≤ fuel →
      ((splitWhitespaceAux fuel s).map Prod.snd).flatten = s := by
  intro fuel
  induction fuel with
  | zero =>
    intro s h
    have : s = [] := List.length_eq_zero.mp (Nat.le_zero.mp h)
    simp [this, splitWhitespaceAux]
  | succ fuel ih =>
    intro s h
    match s with
    | [] => simp [splitWhitespaceAux]
    | c :: cs =>
      have hrest : (cs.dropWhile
          (fun x => rustIsWhitespace x == rustIsWhitespace c)).length ≤ fuel := by
        have := dropWhile_length_le
          (fun x => rustIsWhitespace x == rustIsWhitespace c) cs
        simp at h
        omega
      simp only [splitWhitespaceAux, List.map_cons, List.flatten_cons, ih _ hrest]
      rw [List.cons_append, List.takeWhile_append_dropWhile]

/-- Every chunk produced by `splitWhitespaceAux` is nonempty. -/
theorem splitWhitespaceAux_ne_nil :
    ∀ fuel s ch, ch ∈ splitWhitespaceAux fuel s → ch.2 ≠ [] := by
  intro fuel
  induction fuel with
  | zero => intro s ch h; simp [splitWhitespaceAux] at h
  | succ fuel ih =>
    intro s ch h
    match s with
    | [] => simp [splitWhitespaceAux] at h
    | c :: cs =>
      simp only [splitWhitespaceAux, List.mem_cons] at h
      rcases h with h | h
      · subst h; simp
      · exact ih _ _ h

/-- Token texts and range chaining for the token-emitting loop of `tokenize`:
the emitted texts concatenate to the chunk texts, and the ranges chain from
the starting offset. -/
theorem tokenizeChunks_spec (chunks : List (SplitKind × List Char)) :
    ∀ index start,
      tokensText (tokenizeChunks chunks index start) = (chunks.map Prod.snd).flatten
      ∧ chainedFrom start (tokenizeChunks chunks index start) = true := by
  induction chunks with
  | nil => intro index start; simp [tokenizeChunks, tokensText, chainedFrom]
  | cons head rest ih =>
    obtain ⟨k, slice⟩ := head
    intro index start
    cases k with
    | Whitespace =>
      obtain ⟨iht, ihc⟩ := ih (index + 1) (start + utf8Len slice)
      constructor
      · simp [tokenizeChunks, tokensText] at iht ⊢
        exact iht
      · simp [tokenizeChunks, chainedFrom, Token.range, ihc]
    | Word =>
      have hjoin := split_punctuation_join slice
      set lpunct := (split_punctuation slice).1 with hlp
      set word := (split_punctuation slice).2.1 with hw
      set rpunct := (split_punctuation slice).2.2 with hrp
      have hlen : utf8Len lpunct + (utf8Len word + utf8Len rpunct) = utf8Len slice := by
        rw [← hjoin, utf8Len_append, utf8Len_append]
      constructor
      · show tokensText _ = _
        simp only [tokenizeChunks, ← hlp, ← hw, ← hrp, List.append_assoc]
        rw [tokensText_append, tokensText_append, tokensText_append,
          piece_tokensText, piece_tokensText, piece_tokensText, (ih _ _).1]
        simp only [List.map_cons, List.flatten_cons]
        rw [← hjoin]
        simp [List.append_assoc]
      · show chainedFrom _ _ = true
        simp only [tokenizeChunks, ← hlp, ← hw, ← hrp, List.append_assoc]
        rw [chainedFrom_append, piece_chainedFrom, piece_chainEnd,
          chainedFrom_append, piece_chainedFrom, piece_chainEnd,
          chainedFrom_append, piece_chainedFrom, piece_chainEnd]
        have harith : start + utf8Len lpunct + utf8Len word + utf8Len rpunct
            = start + utf8Len slice := by omega
        rw [harith, (ih _ _).2]
        simp

theorem chainEnd_of_chained :
    ∀ (ts : List Token) (pos : Nat), chainedFrom pos ts = true →
      chainEnd pos ts = pos + utf8Len (tokensText ts) := by
  intro ts
  induction ts with
  | nil => intro pos _; simp [chainEnd, tokensText, utf8Len]
  | cons t ts ih =>
    intro pos h
    simp only [chainedFrom, Bool.and_eq_true, beq_iff_eq] at h
    obtain ⟨h1, h2⟩ := h
    rw [tokensText_cons, utf8Len_append]
    show chainEnd t.range.stop ts = _
    rw [ih _ h2]
    simp only [Token.range] at h1 ⊢
    omega

/-- C1: for every input string `s`, the tokens of `tokenize s` partition `s`
exactly: concatenating every token's text in order reproduces `s`, the byte
ranges chain contiguously starting at 0 (each token starts where the previous
one ends, so they are non-overlapping), and the final end position is the byte
length of `s`, so the ranges exactly cover `[0, len s)`. -/
theorem tokenize_partition (s : List Char) :
    tokensText (tokenize s).tokens = s
    ∧ chainedFrom 0 (tokenize s).tokens = true
    ∧ chainEnd 0 (tokenize s).tokens = utf8Len s := by
  have h := tokenizeChunks_spec (split_whitespace s) 0 0
  have hjoin := splitWhitespaceAux_join s.length s (Nat.le_refl _)
  have h1 : tokensText (tokenize s).tokens = s := by
    show tokensText (tokenizeChunks (split_whitespace s) 0 0) = s
    rw [h.1]
    exact hjoin
  have h2 : chainedFrom 0 (tokenize s).tokens = true := h.2
  refine ⟨h1, h2, ?_⟩
  rw [chainEnd_of_chained _ _ h2, h1]
  simp

/-- C8: `tokenize "Hello world!  "` produces exactly five tokens with texts
`["Hello", " ", "world", "!", "  "]`, kinds
`[Word, Whitespace, Word, Punctuation, Whitespace]` and byte ranges
`[0,5), [5,6), [6,11), [11,12), [12,14)`. -/
theorem tokenize_hello_world :
    (tokenize "Hello world!  ".toList).tokens
      = [⟨0, "Hello".toList, 0, TokenKind.Word⟩,
         ⟨1, " ".toList, 5, TokenKind.Whitespace⟩,
         ⟨2, "world".toList, 6, TokenKind.Word⟩,
         ⟨3, "!".toList, 11, TokenKind.Punctuation⟩,
         ⟨4, "  ".toList, 12, TokenKind.Whitespace⟩]
    ∧ (tokenize "Hello world!  ".toList).tokens.map Token.range
      = [⟨0, 5⟩, ⟨5, 6⟩, ⟨6, 11⟩, ⟨11, 12⟩, ⟨12, 14⟩] := by decide

/-- C6: on the document of "ab . cd" a whitespace token stands between the
word token `ab` (index 0) and the period token `.`, yet
`is_abbreviation_or_ends_with_dot` returns `true` for the word token: the
implementation reaches the punctuation through `next_token_not_whitespace`,
which skips whitespace tokens, contradicting the claim (and the function's
own documentation, which says a separating space must yield `false`). -/
theorem is_abbreviation_skips_whitespace :
    ((tokenize "ab . cd".toList).tokens.map Token.kind
      = [TokenKind.Word, TokenKind.Whitespace, TokenKind.Punctuation,
         TokenKind.Whitespace, TokenKind.Word])
    ∧ ((tokenize "ab . cd".toList).tokens[0]?.map
        (tokenize "ab . cd".toList).is_abbreviation_or_ends_with_dot
        = some true) := by decide

/-- Value of Rust `u32::MAX`. -/
def U32_MAX : Nat := 4294967295

/-- `Token::new` from `tokenizer.rs`: the source converts the `usize` offset to
`u32` with `u32::try_from(offset).unwrap()`, which panics when the offset
exceeds `u32::MAX`; the panic is modelled as `none`. -/
def Token.new (text : List Char) (index offset : Nat) (kind : TokenKind) :
    Option Token :=
  if offset ≤ U32_MAX then some ⟨index, text, offset, kind⟩ else none

/-- One optional-piece emission of the word branch of `tokenize`: the source
pushes a token only when the piece is nonempty, and the push goes through the
conversion check of `Token::new`. -/
def pieceE (x : List Char) (i off : Nat) (k : TokenKind) : Option (List Token) :=
  if x = [] then pure [] else (Token.new x i off k).map (fun t => [t])

/-- The token-emitting loop of `tokenize` with the conversion check of
`Token::new` made explicit: `none` models the panic on an offset larger than
`u32::MAX`. -/
def tokenizeChunksE : List (SplitKind × List Char) → Nat → Nat → Option (List Token)
  | [], _, _ => some []
  | (SplitKind.Whitespace, slice) :: rest, index, start => do
    let t ← Token.new slice index start TokenKind.Whitespace
    let ts ← tokenizeChunksE rest (index + 1) (start + utf8Len slice)
    pure (t :: ts)
  | (SplitKind.Word, slice) :: rest, index, start => do
    let lwr := split_punctuation slice
    let lpunct := lwr.1
    let word := lwr.2.1
    let rpunct := lwr.2.2
    let t1 ← pieceE lpunct index start TokenKind.Punctuation
    let i2 := index + t1.length
    let wkind := if is_greek_word word then TokenKind.GreekWord else TokenKind.Word
    let t2 ← pieceE word i2 (start + utf8Len lpunct) wkind
    let i3 := i2 + t2.length
    let t3 ← pieceE rpunct i3 (start + utf8Len lpunct + utf8Len word)
      TokenKind.Punctuation
    let ts ← tokenizeChunksE rest (i3 + t3.length) (start + utf8Len slice)
    pure (t1 ++ t2 ++ t3 ++ ts)

/-- `tokenize` with the offset-overflow panic of `Token::new` modelled as
`none`. -/
def tokenizeE (s : List Char) : Option Doc :=
  (tokenizeChunksE (split_whitespace s) 0 0).map (fun ts => ⟨s, ts⟩)

theorem utf8Len_pos (x : List Char) (h : x ≠ []) : 1 ≤ utf8Len x := by
  match x with
  | [] => exact absurd rfl h
  | c :: cs =>
    have := Char.utf8Size_pos c
    simp [utf8Len]
    omega

theorem pieceE_some (x : List Char) (i off : Nat) (k : TokenKind)
    (h : x = [] ∨ off ≤ U32_MAX) :
    ∃ l, pieceE x i off k = some l := by
  by_cases hx : x = []
  · exact ⟨[], by simp [pieceE, hx]⟩
  · rcases h with h | h
    · exact absurd h hx
    · exact ⟨[⟨i, x, off, k⟩], by simp [pieceE, hx, Token.new, h]⟩

/-- When every chunk is nonempty and the text ends within the addressable
`u32` byte range, the checked token-emitting loop succeeds. -/
theorem tokenizeChunksE_isSome (chunks : List (SplitKind × List Char)) :
    ∀ index start,
      (∀ ch ∈ chunks, ch.2 ≠ []) →
      start + utf8Len ((chunks.map Prod.snd).flatten) ≤ U32_MAX + 1 →
      (tokenizeChunksE chunks index start).isSome = true := by
  induction chunks with
  | nil => intro index start _ _; simp [tokenizeChunksE]
  | cons head rest ih =>
    obtain ⟨k, slice⟩ := head
    intro index start hne hbound
    have hslice : slice ≠ [] := hne (k, slice) (List.mem_cons_self _ _)
    have hslen : 1 ≤ utf8Len slice := utf8Len_pos slice hslice
    have hbound' : start + utf8Len slice
        + utf8Len ((rest.map Prod.snd).flatten) ≤ U32_MAX + 1 := by
      simp only [List.map_cons, List.flatten_cons, utf8Len_append] at hbound
      omega
    have hrest : ∀ i, ∃ ts, tokenizeChunksE rest i (start + utf8Len slice)
        = some ts := by
      intro i
      have := ih i (start + utf8Len slice)
        (fun ch hch => hne ch (List.mem_cons_of_mem _ hch)) (by omega)
      exact Option.isSome_iff_exists.mp this
    cases k with
    | Whitespace =>
      have hoff : start ≤ U32_MAX := by omega
      obtain ⟨ts, hts⟩ := hrest (index + 1)
      simp [tokenizeChunksE, Token.new, hoff, hts]
    | Word =>
      have hjoin := split_punctuation_join slice
      set lpunct := (split_punctuation slice).1 with hlp
      set word := (split_punctuation slice).2.1 with hw
      set rpunct := (split_punctuation slice).2.2 with hrp
      have hlen : utf8Len lpunct + (utf8Len word + utf8Len rpunct) = utf8Len slice := by
        rw [← hjoin, utf8Len_append, utf8Len_append]
      have e1 : ∃ l, pieceE lpunct index start TokenKind.Punctuation = some l := by
        apply pieceE_some
        by_cases h : lpunct = []
        · exact Or.inl h
        · have := utf8Len_pos lpunct h
          exact Or.inr (by omega)
      obtain ⟨l1, he1⟩ := e1
      have e2 : ∀ i, ∃ l, pieceE word i (start + utf8Len lpunct)
          (if is_greek_word word then TokenKind.GreekWord
           else TokenKind.Word) = some l := by
        intro i
        apply pieceE_some
        by_cases h : word = []
        · exact Or.inl h
        · have := utf8Len_pos word h
          exact Or.inr (by omega)
      have e3 : ∀ i, ∃ l, pieceE rpunct i (start + utf8Len lpunct + utf8Len word)
          TokenKind.Punctuation = some l := by
        intro i
        apply pieceE_some
        by_cases h : rpunct = []
        · exact Or.inl h
        · have := utf8Len_pos rpunct h
          exact Or.inr (by omega)
      obtain ⟨l2, he2⟩ := e2 (index + l1.length)
      obtain ⟨l3, he3⟩ := e3 (index + l1.length + l2.length)
      obtain ⟨ts, hts⟩ := hrest (index + l1.length + l2.length + l3.length)
      simp only [tokenizeChunksE, ← hlp, ← hw, ← hrp]
      rw [he1]
      simp only [Option.bind_eq_bind, Option.some_bind]
      rw [he2]
      simp only [Option.bind_eq_bind, Option.some_bind]
      rw [he3]
      simp only [Option.bind_eq_bind, Option.some_bind]
      rw [hts]
      simp

/-- C7 amended: `tokenize` is total (no panic) for every valid UTF-8 input
whose byte length fits in `u32`: under `utf8Len s ≤ u32::MAX`, every token
offset passed to `Token::new` fits and tokenization succeeds.  (The claim as
stated, "regardless of input length", fails: see the counterexample.) -/
theorem tokenizeE_total_of_small (s : List Char) (h : utf8Len s ≤ U32_MAX) :
    (tokenizeE s).isSome = true := by
  have hjoin := splitWhitespaceAux_join s.length s (Nat.le_refl _)
  have := tokenizeChunksE_isSome (split_whitespace s) 0 0
    (fun ch hch => splitWhitespaceAux_ne_nil _ _ _ hch)
    (by
      show 0 + utf8Len (((splitWhitespaceAux s.length s).map Prod.snd).flatten)
        ≤ U32_MAX + 1
      rw [hjoin]
      omega)
  simpa [tokenizeE] using this

/-- Witness for C7's amended theorem at the concrete input "ab". -/
theorem tokenizeE_total_witness :
    utf8Len "ab".toList ≤ U32_MAX ∧ (tokenizeE "ab".toList).isSome = true :=
  ⟨by decide, tokenizeE_total_of_small _ (by decide)⟩

theorem takeWhile_replicate_append_of_pos (p : α → Bool) (a : α) (hp : p a = true) :
    ∀ (n : Nat) (l : List α),
      (List.replicate n a ++ l).takeWhile p = List.replicate n a ++ l.takeWhile p := by
  intro n
  induction n with
  | zero => intro l; simp
  | succ n ih =>
    intro l
    simp [List.replicate_succ, List.takeWhile_cons, hp, ih]

theorem dropWhile_replicate_append_of_pos (p : α → Bool) (a : α) (hp : p a = true) :
    ∀ (n : Nat) (l : List α),
      (List.replicate n a ++ l).dropWhile p = l.dropWhile p := by
  intro n
  induction n with
  | zero => intro l; simp
  | succ n ih =>
    intro l
    simp [List.replicate_succ, List.dropWhile_cons, hp, ih]

theorem takeWhile_replicate_of_neg (p : α → Bool) (a : α) (hp : p a = false)
    (n : Nat) : (List.replicate n a).takeWhile p = [] := by
  cases n with
  | zero => simp
  | succ n => simp [List.replicate_succ, List.takeWhile_cons, hp]

theorem dropWhile_replicate_of_neg (p : α → Bool) (a : α) (hp : p a = false)
    (n : Nat) : (List.replicate n a).dropWhile p = List.replicate n a := by
  cases n with
  | zero => simp
  | succ n => simp [List.replicate_succ, List.dropWhile_cons, hp]

theorem splitWhitespaceAux_nil (fuel : Nat) : splitWhitespaceAux fuel [] = [] := by
  cases fuel <;> simp [splitWhitespaceAux]

theorem utf8Len_replicate (n : Nat) (c : Char) :
    utf8Len (List.replicate n c) = n * c.utf8Size := by
  simp [utf8Len, List.map_replicate, List.sum_replicate, smul_eq_mul]

/-- Splitting a run of `m + 1` letters `a` followed by one space. -/
theorem split_whitespace_replicate_a_space (m : Nat) :
    split_whitespace (List.replicate (m + 1) 'a' ++ [' '])
      = [(SplitKind.Word, List.replicate (m + 1) 'a'),
         (SplitKind.Whitespace, [' '])] := by
  have hpa : rustIsWhitespace 'a' = false := by decide
  have hws : rustIsWhitespace ' ' = true := by decide
  have hlen : (List.replicate (m + 1) 'a' ++ [' ']).length = m + 1 + 1 := by
    simp
  have hts : List.takeWhile (fun x => rustIsWhitespace x == false) [' '] = [] := by
    decide
  have hds : List.dropWhile (fun x => rustIsWhitespace x == false) [' '] = [' '] := by
    decide
  have h1 : (List.replicate m 'a' ++ [' ']).takeWhile
      (fun x => rustIsWhitespace x == false) = List.replicate m 'a' := by
    rw [takeWhile_replicate_append_of_pos (fun x => rustIsWhitespace x == false)
      'a' (by decide), hts, List.append_nil]
  have h2 : (List.replicate m 'a' ++ [' ']).dropWhile
      (fun x => rustIsWhitespace x == false) = [' '] := by
    rw [dropWhile_replicate_append_of_pos (fun x => rustIsWhitespace x == false)
      'a' (by decide), hds]
  unfold split_whitespace
  rw [hlen, List.replicate_succ, List.cons_append]
  simp only [splitWhitespaceAux, hpa, Bool.false_eq_true, if_false]
  rw [h1, h2, ← List.replicate_succ]
  simp only [splitWhitespaceAux, hws, List.takeWhile_nil, List.dropWhile_nil,
    splitWhitespaceAux_nil, if_true]

/-- `split_punctuation` on a run of letters `a`: no punctuation pieces. -/
theorem split_punctuation_replicate_a (n : Nat) :
    split_punctuation (List.replicate n 'a') = ([], List.replicate n 'a', []) := by
  simp only [split_punctuation,
    dropWhile_replicate_of_neg (fun c => !is_alphabetic c) 'a' (by decide),
    takeWhile_replicate_of_neg (fun c => !is_alphabetic c) 'a' (by decide),
    List.reverse_replicate, List.reverse_nil]

/-- On a run of `m + 1` letters followed by a space, when `m + 1` exceeds
`u32::MAX` the whitespace token's offset fails the `Token::new` conversion
check and the checked tokenizer returns `none`. -/
theorem tokenizeE_overflow_general (m : Nat) (h : ¬(m + 1 ≤ U32_MAX)) :
    (tokenizeE (List.replicate (m + 1) 'a' ++ [' '])).isSome = false := by
  have hsw := split_whitespace_replicate_a_space m
  have hsp := split_punctuation_replicate_a (m + 1)
  have hul : utf8Len (List.replicate (m + 1) 'a') = m + 1 := by
    have h1 : Char.utf8Size 'a' = 1 := by decide
    rw [utf8Len_replicate, h1, Nat.mul_one]
  have hwne : List.replicate (m + 1) 'a' ≠ [] := by
    intro hh
    have := congrArg List.length hh
    simp at this
  have hmul : (m + 1) * Char.utf8Size 'a' = m + 1 := by
    have h1 : Char.utf8Size 'a' = 1 := by decide
    rw [h1, Nat.mul_one]
  unfold tokenizeE
  rw [hsw]
  simp [tokenizeChunksE, hsp, pieceE, Token.new, hul, hwne, h, utf8Len, hmul]

/- ----------------------------------------------------------------------
The linter: `registry.rs` and `linter.rs`.
---------------------------------------------------------------------- -/

/-- `Rule` from `registry.rs`.  `linter.rs` additionally dispatches on
`Rule::ForbiddenDoubleAccent` (and `rules/forbidden_accent.rs` emits it), so
it is included as a variant; `has_fix` follows the `matches!` list of
`registry.rs`, in which it does not appear. -/
inductive Rule where
  | MissingDoubleAccents
  | MissingAccentCapital
  | DuplicatedWord
  | AddFinalN
  | RemoveFinalN
  | OutdatedSpelling
  | MonosyllableAccented
  | MultisyllableNotAccented
  | MixedScripts
  | AmbiguousChar
  | ForbiddenAccent
  | ForbiddenChar
  | Punctuation
  | ForbiddenDoubleAccent
deriving DecidableEq

/-- `Rule::has_fix` from `registry.rs`. -/
def Rule.has_fix : Rule → Bool
  | .MissingDoubleAccents | .MissingAccentCapital | .AddFinalN | .RemoveFinalN
  | .OutdatedSpelling | .MonosyllableAccented | .MixedScripts | .AmbiguousChar
  | .Punctuation => true
  | _ => false

/-- `Rule::requires_tokenizing` from `registry.rs`. -/
def Rule.requires_tokenizing : Rule → Bool
  | .OutdatedSpelling | .AmbiguousChar | .ForbiddenChar => false
  | _ => true

/-- `Fix` from `diagnostic.rs`. -/
structure Fix where
  replacement : List Char
  range : TextRange
deriving DecidableEq

/-- `Diagnostic` from `diagnostic.rs`. -/
structure Diagnostic where
  kind : Rule
  range : TextRange
  fix : Option Fix
deriving DecidableEq

/-- A token-context rule evaluator, the `(token, doc) -> diagnostics` shape of
the spec's rule contract.  The concrete rule implementations are the model's
parameters; `check` tags each produced diagnostic with the rule's kind, which
is what every implementation under `rules/` does. -/
abbrev TokEval := Rule → Token → Doc → List (TextRange × Option Fix)

/-- A raw-text rule evaluator, the `(text) -> diagnostics` shape of the spec's
rule contract. -/
abbrev RawEval := Rule → List Char → List (TextRange × Option Fix)

/-- Tag a rule evaluator's output as diagnostics of that rule. -/
def tagDiags (r : Rule) (l : List (TextRange × Option Fix)) : List Diagnostic :=
  l.map fun p => ⟨r, p.1, p.2⟩

/-- The rules dispatched by `check_token_with_context` in `linter.rs`, in
source order of its `if config.contains(&Rule::X)` blocks. -/
def tokenRules : List Rule :=
  [.MonosyllableAccented, .MissingAccentCapital, .MultisyllableNotAccented,
   .MissingDoubleAccents, .AddFinalN, .RemoveFinalN, .DuplicatedWord,
   .ForbiddenAccent, .ForbiddenDoubleAccent, .Punctuation]

/-- `check_token_with_context` from `linter.rs`: ten sequential
`if config.contains(&Rule::X) { x(token, doc, &mut diagnostics) }` blocks in
the order of `tokenRules`. -/
def check_token_with_context (evalTok : TokEval) (token : Token) (doc : Doc)
    (config : List Rule) : List Diagnostic :=
  (tokenRules.map fun r =>
    if r ∈ config then tagDiags r (evalTok r token doc) else []).flatten

/-- The rules dispatched by `check_raw` in `linter.rs`, in source order. -/
def rawRules : List Rule := [.OutdatedSpelling, .AmbiguousChar, .ForbiddenChar]

/-- `check_raw` from `linter.rs`. -/
def check_raw (evalRaw : RawEval) (text : List Char) (config : List Rule) :
    List Diagnostic :=
  (rawRules.map fun r =>
    if r ∈ config then tagDiags r (evalRaw r text) else []).flatten

/-- The per-token dispatch of the token walk in `check` from `linter.rs`:
whitespace and punctuation tokens get no rules, Greek words get the
token-context rules, and other words only `MixedScripts`. -/
def tokenPhase (evalTok : TokEval) (doc : Doc) (rules_requiring_doc : List Rule)
    (token : Token) : List Diagnostic :=
  if token.kind = TokenKind.Whitespace ∨ token.kind = TokenKind.Punctuation then
    []
  else if token.kind = TokenKind.GreekWord then
    check_token_with_context evalTok token doc rules_requiring_doc
  else if Rule.MixedScripts ∈ rules_requiring_doc then
    tagDiags .MixedScripts (evalTok .MixedScripts token doc)
  else []

/-- `check` from `linter.rs`, instrumented with a Boolean recording whether the
text was tokenized (a `Doc` constructed): the raw rules run first, and if no
enabled rule requires tokenizing the function returns early without building a
`Doc`. -/
def checkInstr (evalTok : TokEval) (evalRaw : RawEval) (text : List Char)
    (config : List Rule) : List Diagnostic × Bool :=
  let diagnostics := check_raw evalRaw text config
  let rules_requiring_doc := config.filter Rule.requires_tokenizing
  if rules_requiring_doc.isEmpty then (diagnostics, false)
  else
    let doc := tokenize text
    let tokDiags := doc.tokens.foldl
      (fun acc token => acc ++ tokenPhase evalTok doc rules_requiring_doc token) []
    (diagnostics ++ tokDiags, true)

/-- `check` from `linter.rs` (diagnostics component of the instrumented
version). -/
def check (evalTok : TokEval) (evalRaw : RawEval) (text : List Char)
    (config : List Rule) : List Diagnostic :=
  (checkInstr evalTok evalRaw text config).1

/-- `cmp_fix` from `linter.rs`. -/
def cmp_fix (rule1 rule2 : Rule) (fix1 fix2 : Fix) : Ordering :=
  (match rule1, rule2 with
   | Rule.DuplicatedWord, _ => Ordering.lt
   | _, Rule.DuplicatedWord => Ordering.gt
   | _, _ => Ordering.eq).then
    (compare fix1.range.start fix2.range.start)

/-- `MAX_ITERATIONS` from `linter.rs`. -/
def MAX_ITERATIONS : Nat := 100

/-- `Counter` from `linter.rs` (`HashMap<Rule, usize>`), modelled as an
association list. -/
abbrev Counter := List (Rule × Nat)

/-- `*fixed.entry(rule).or_insert(0) += 1` on the association-list counter. -/
def counterIncr : Counter → Rule → Counter
  | [], r => [(r, 1)]
  | (r', n) :: rest, r =>
    if r' = r then (r', n + 1) :: rest else (r', n) :: counterIncr rest r

/-- The counter has no entry at all for rule `r`. -/
def counterLacks (c : Counter) (r : Rule) : Bool :=
  c.all fun p => decide (p.1 ≠ r)

/-- The mutable state of one pass of the fix loop in `fix` from `linter.rs`:
`last_pos`, `first_fix`, the final accumulator `final_transformed`, the
per-pass buffer `transformed_this_iter` and the counter `fixed`. -/
structure PassState where
  last_pos : Option Nat
  first_fix : Bool
  finalAcc : List Char
  iterAcc : List Char
  fixed : Counter
deriving DecidableEq

/-- Rust slice `&text[a..b]` of the fix loop, as positions into the current
text sequence. -/
def sliceTo (s : List Char) (a b : Nat) : List Char :=
  (s.take b).drop a

/-- The `for (rule, fix) in rfixes` walk of one pass of `fix` from
`linter.rs`.  On a disordered fix (`last_pos > fix.range.start()`) the source
prints "Break due to disordered fixes" and breaks out of the loop: the state
is returned unchanged and the remaining fixes of the pass are dropped.
Otherwise the counter is bumped, the unchanged gap and the replacement are
appended — to `final_transformed` for the first applied fix of the pass,
to `transformed_this_iter` afterwards — and `last_pos` becomes the fix's
end. -/
def applyFixes (transformed : List Char) :
    List (Rule × Fix) → PassState → PassState
  | [], st => st
  | (rule, fx) :: rest, st =>
    let disordered := match st.last_pos with
      | some lp => decide (fx.range.start < lp)
      | none => false
    if disordered then st
    else
      let fixed' := counterIncr st.fixed rule
      let lp0 := st.last_pos.getD 0
      let seg := sliceTo transformed lp0 fx.range.start ++ fx.replacement
      let st' :=
        if st.first_fix then
          { st with
            finalAcc := st.finalAcc ++ seg,
            first_fix := false,
            fixed := fixed',
            last_pos := some fx.range.stop }
        else
          { st with
            iterAcc := st.iterAcc ++ seg,
            fixed := fixed',
            last_pos := some fx.range.stop }
      applyFixes transformed rest st'

/-- The per-pass walk as C3 words it: a disordered fix is skipped and the walk
continues with the remaining fixes of the same pass.  Stated only to be
compared against `applyFixes`, the source's behaviour. -/
def applyFixesSkip (transformed : List Char) :
    List (Rule × Fix) → PassState → PassState
  | [], st => st
  | (rule, fx) :: rest, st =>
    let disordered := match st.last_pos with
      | some lp => decide (fx.range.start < lp)
      | none => false
    if disordered then applyFixesSkip transformed rest st
    else
      let fixed' := counterIncr st.fixed rule
      let lp0 := st.last_pos.getD 0
      let seg := sliceTo transformed lp0 fx.range.start ++ fx.replacement
      let st' :=
        if st.first_fix then
          { st with
            finalAcc := st.finalAcc ++ seg,
            first_fix := false,
            fixed := fixed',
            last_pos := some fx.range.stop }
        else
          { st with
            iterAcc := st.iterAcc ++ seg,
            fixed := fixed',
            last_pos := some fx.range.stop }
      applyFixesSkip transformed rest st'

/-- `itertools::sorted_by` with `cmp_fix`, as called in `fix`. -/
def sortFixes (l : List (Rule × Fix)) : List (Rule × Fix) :=
  l.mergeSort fun a b => !(cmp_fix a.1 b.1 a.2 b.2 == Ordering.gt)

/-- The state threaded through the `loop` of `fix` from `linter.rs`. -/
structure FixState where
  transformed : List Char
  finalAcc : List Char
  messages : List (List Char)
  fixed : Counter
  iterations : Nat

/-- The `loop { .. }` of `fix` from `linter.rs`: check, keep the fixable
diagnostics, stop when none remain, otherwise sort them with `cmp_fix`, walk
them with `applyFixes`, append the tail after `last_pos`, and repeat until the
iteration counter reaches `MAX_ITERATIONS` (checked after the end-of-pass
increment, exactly as in the source).  The fuel argument only bounds the
recursion; `fix` supplies `MAX_ITERATIONS`, so the fuel never runs out before
the source's cap check fires. -/
def fixLoop (evalTok : TokEval) (evalRaw : RawEval) (config : List Rule) :
    Nat → FixState → FixState
  | 0, st => st
  | fuel + 1, st =>
    let diagnostics := check evalTok evalRaw st.transformed config
    let with_fixes := diagnostics.filter fun d => d.fix.isSome
    if with_fixes.isEmpty then st
    else
      let rfixes := sortFixes (with_fixes.filterMap fun d =>
        d.fix.map fun f => (d.kind, f))
      let ps := applyFixes st.transformed rfixes
        ⟨none, true, st.finalAcc, [], st.fixed⟩
      let iterAcc := match ps.last_pos with
        | some lp => ps.iterAcc ++ st.transformed.drop lp
        | none => ps.iterAcc
      let st' : FixState :=
        ⟨iterAcc, ps.finalAcc, st.messages, ps.fixed, st.iterations + 1⟩
      if st'.iterations = MAX_ITERATIONS then st'
      else fixLoop evalTok evalRaw config fuel st'

/-- `fix` from `linter.rs`: filter the configuration to the rules with fixes,
run the loop from the input text, and return the final accumulator followed by
the last working text, the (never written) messages, and the counter. -/
def fix (evalTok : TokEval) (evalRaw : RawEval) (text : List Char)
    (config : List Rule) : List Char × List (List Char) × Counter :=
  let rules_with_fixes := config.filter Rule.has_fix
  let st := fixLoop evalTok evalRaw rules_with_fixes MAX_ITERATIONS
    ⟨text, [], [], [], 0⟩
  (st.finalAcc ++ st.transformed, st.messages, st.fixed)

/-- C7 counterexample: on the input made of `u32::MAX + 1` letters `a`
followed by a space, the whitespace token starts at byte offset
`u32::MAX + 1`, so the `u32::try_from(offset).unwrap()` inside `Token::new`
panics: the checked tokenizer returns `none`, refuting totality "regardless
of input length". -/
theorem tokenizeE_overflow :
    (tokenizeE (List.replicate (4294967295 + 1) 'a' ++ [' '])).isSome = false :=
  tokenizeE_overflow_general 4294967295 (by decide)

/-- C4 amended: `cmp_fix` puts any `DuplicatedWord` diagnostic strictly before
any other kind and orders pairs in which neither side is `DuplicatedWord` by
ascending fix start; but a pair of two `DuplicatedWord` diagnostics always
compares `lt` (the first match arm fires), so ties between two
`DuplicatedWord` diagnostics are not broken by start position. -/
theorem cmp_fix_characterization (rule1 rule2 : Rule) (fix1 fix2 : Fix) :
    cmp_fix rule1 rule2 fix1 fix2
      = if rule1 = Rule.DuplicatedWord then Ordering.lt
        else if rule2 = Rule.DuplicatedWord then Ordering.gt
        else compare fix1.range.start fix2.range.start := by
  cases rule1 <;> cases rule2 <;> simp [cmp_fix, Ordering.then]

/-- C4 counterexample: two `DuplicatedWord` diagnostics compare `lt` whatever
their starts; here the left fix starts at 5 and the right one at 1, where the
claimed ascending-start tie-breaking would give `compare 5 1 = gt`. -/
theorem cmp_fix_duplicated_pair :
    cmp_fix Rule.DuplicatedWord Rule.DuplicatedWord
        ⟨[], ⟨5, 6⟩⟩ ⟨[], ⟨1, 2⟩⟩ = Ordering.lt
    ∧ compare (5 : Nat) 1 = Ordering.gt
    ∧ Ordering.lt ≠ Ordering.gt := by decide

theorem fixLoop_messages (evalTok : TokEval) (evalRaw : RawEval)
    (config : List Rule) :
    ∀ (fuel : Nat) (st : FixState),
      (fixLoop evalTok evalRaw config fuel st).messages = st.messages := by
  intro fuel
  induction fuel with
  | zero => intro st; rfl
  | succ fuel ih =>
    intro st
    show (fixLoop evalTok evalRaw config (fuel + 1) st).messages = st.messages
    rw [fixLoop]
    split
    · rfl
    · simp only []
      split
      · rfl
      · exact ih _

/-- C10: the messages component of the triple returned by `fix` is always the
empty list: the loop allocates the buffer and never pushes to it. -/
theorem fix_messages_empty (evalTok : TokEval) (evalRaw : RawEval)
    (text : List Char) (config : List Rule) :
    (fix evalTok evalRaw text config).2.1 = [] := by
  show (fixLoop evalTok evalRaw (config.filter Rule.has_fix) MAX_ITERATIONS
    ⟨text, [], [], [], 0⟩).messages = []
  rw [fixLoop_messages]

theorem fixLoop_iterations_le (evalTok : TokEval) (evalRaw : RawEval)
    (config : List Rule) :
    ∀ (fuel : Nat) (st : FixState),
      (fixLoop evalTok evalRaw config fuel st).iterations
        ≤ st.iterations + fuel := by
  intro fuel
  induction fuel with
  | zero => intro st; simp [fixLoop]
  | succ fuel ih =>
    intro st
    show (fixLoop evalTok evalRaw config (fuel + 1) st).iterations
      ≤ st.iterations + (fuel + 1)
    rw [fixLoop]
    split
    · omega
    · simp only []
      split
      · show st.iterations + 1 ≤ st.iterations + (fuel + 1)
        omega
      · refine le_trans (ih _) ?_
        show st.iterations + 1 + fuel ≤ st.iterations + (fuel + 1)
        omega

/-- C2: the fix loop performs at most `MAX_ITERATIONS = 100` check/apply
iterations for every input and configuration, and `fix` always returns
normally with the accumulated text of the loop's final state (on cap
exhaustion this is the text as of the last completed iteration). -/
theorem fix_bounded (evalTok : TokEval) (evalRaw : RawEval) (text : List Char)
    (config : List Rule) :
    (fixLoop evalTok evalRaw (config.filter Rule.has_fix) MAX_ITERATIONS
        ⟨text, [], [], [], 0⟩).iterations ≤ MAX_ITERATIONS
    ∧ fix evalTok evalRaw text config
        = ((fixLoop evalTok evalRaw (config.filter Rule.has_fix) MAX_ITERATIONS
              ⟨text, [], [], [], 0⟩).finalAcc
            ++ (fixLoop evalTok evalRaw (config.filter Rule.has_fix)
              MAX_ITERATIONS ⟨text, [], [], [], 0⟩).transformed,
           (fixLoop evalTok evalRaw (config.filter Rule.has_fix) MAX_ITERATIONS
              ⟨text, [], [], [], 0⟩).messages,
           (fixLoop evalTok evalRaw (config.filter Rule.has_fix) MAX_ITERATIONS
              ⟨text, [], [], [], 0⟩).fixed) := by
  constructor
  · have h := fixLoop_iterations_le evalTok evalRaw (config.filter Rule.has_fix)
      MAX_ITERATIONS ⟨text, [], [], [], 0⟩
    simpa using h
  · rfl

/-- C3 amended: when the walk over the sorted fixes reaches a fix whose
`range.start()` is below `last_pos`, the source breaks out of the pass loop:
that fix and every remaining fix of the pass are discarded (they are
re-evaluated next pass) and the pass state is returned unchanged. -/
theorem applyFixes_break (T : List Char) (rule : Rule) (fx : Fix)
    (rest : List (Rule × Fix)) (st : PassState) (lp : Nat)
    (h1 : st.last_pos = some lp) (h2 : fx.range.start < lp) :
    applyFixes T ((rule, fx) :: rest) st = st := by
  rw [applyFixes, h1]
  simp [h2]

/-- Witness for C3's amended theorem at a concrete state. -/
theorem applyFixes_break_witness :
    (⟨some 2, false, [], [], []⟩ : PassState).last_pos = some 2
    ∧ (1 : Nat) < 2
    ∧ applyFixes [] [(Rule.Punctuation, ⟨[], ⟨1, 3⟩⟩)]
        ⟨some 2, false, [], [], []⟩ = ⟨some 2, false, [], [], []⟩ :=
  ⟨rfl, by decide, applyFixes_break [] Rule.Punctuation ⟨[], ⟨1, 3⟩⟩ []
    ⟨some 2, false, [], [], []⟩ 2 rfl (by decide)⟩

/-- C3 counterexample: three sorted fixes on "abcdef" — `[0,2)`, then an
overlapping `[1,3)`, then a non-overlapping `[5,6)`.  The source walk stops at
the overlap, so only the first fix is counted and the later non-overlapping
fix is not applied in this pass, unlike the skip-and-continue walk the claim
describes. -/
theorem applyFixes_drops_rest :
    applyFixes "abcdef".toList
        [(Rule.AddFinalN, ⟨"X".toList, ⟨0, 2⟩⟩),
         (Rule.RemoveFinalN, ⟨"Y".toList, ⟨1, 3⟩⟩),
         (Rule.Punctuation, ⟨"Z".toList, ⟨5, 6⟩⟩)]
        ⟨none, true, [], [], []⟩
      ≠ applyFixesSkip "abcdef".toList
        [(Rule.AddFinalN, ⟨"X".toList, ⟨0, 2⟩⟩),
         (Rule.RemoveFinalN, ⟨"Y".toList, ⟨1, 3⟩⟩),
         (Rule.Punctuation, ⟨"Z".toList, ⟨5, 6⟩⟩)]
        ⟨none, true, [], [], []⟩
    ∧ (applyFixes "abcdef".toList
        [(Rule.AddFinalN, ⟨"X".toList, ⟨0, 2⟩⟩),
         (Rule.RemoveFinalN, ⟨"Y".toList, ⟨1, 3⟩⟩),
         (Rule.Punctuation, ⟨"Z".toList, ⟨5, 6⟩⟩)]
        ⟨none, true, [], [], []⟩).fixed = [(Rule.AddFinalN, 1)]
    ∧ (applyFixesSkip "abcdef".toList
        [(Rule.AddFinalN, ⟨"X".toList, ⟨0, 2⟩⟩),
         (Rule.RemoveFinalN, ⟨"Y".toList, ⟨1, 3⟩⟩),
         (Rule.Punctuation, ⟨"Z".toList, ⟨5, 6⟩⟩)]
        ⟨none, true, [], [], []⟩).fixed
      = [(Rule.AddFinalN, 1), (Rule.Punctuation, 1)] := by decide

/-- C5: when no enabled rule requires tokenizing, `check` returns exactly the
raw-text diagnostics and never constructs a `Doc` (the instrumentation Boolean
is `false`). -/
theorem check_no_tokenize (evalTok : TokEval) (evalRaw : RawEval)
    (text : List Char) (config : List Rule)
    (h : ∀ r ∈ config, r.requires_tokenizing = false) :
    checkInstr evalTok evalRaw text config
      = (check_raw evalRaw text config, false)
    ∧ check evalTok evalRaw text config = check_raw evalRaw text config := by
  have hf : config.filter Rule.requires_tokenizing = [] := by
    rw [List.filter_eq_nil_iff]
    intro a ha
    simp [h a ha]
  refine ⟨?_, ?_⟩
  · unfold checkInstr
    simp [hf]
  · unfold check checkInstr
    simp [hf]

/-- Witness for C5 at a concrete raw-only configuration. -/
theorem check_no_tokenize_witness :
    (∀ r ∈ [Rule.OutdatedSpelling, Rule.ForbiddenChar],
      r.requires_tokenizing = false)
    ∧ checkInstr (fun _ _ _ => []) (fun _ _ => [(⟨0, 0⟩, none)]) "x".toList
        [Rule.OutdatedSpelling, Rule.ForbiddenChar]
      = (check_raw (fun _ _ => [(⟨0, 0⟩, none)]) "x".toList
          [Rule.OutdatedSpelling, Rule.ForbiddenChar], false) :=
  ⟨by decide,
   (check_no_tokenize (fun _ _ _ => []) (fun _ _ => [(⟨0, 0⟩, none)]) "x".toList
     [Rule.OutdatedSpelling, Rule.ForbiddenChar] (by decide)).1⟩

theorem counterIncr_lacks (r r' : Rule) (hne : r' ≠ r) :
    ∀ (c : Counter), counterLacks c r = true →
      counterLacks (counterIncr c r') r = true := by
  intro c
  induction c with
  | nil =>
    intro _
    simp [counterIncr, counterLacks, hne]
  | cons p rest ih =>
    obtain ⟨pr, pn⟩ := p
    intro h
    simp only [counterLacks, List.all_cons, Bool.and_eq_true,
      decide_eq_true_eq] at h
    obtain ⟨h1, h2⟩ := h
    by_cases hpr : pr = r'
    · simp only [counterIncr, hpr, if_pos]
      simp only [counterLacks, List.all_cons, Bool.and_eq_true,
        decide_eq_true_eq]
      refine ⟨by simpa [hpr] using h1, ?_⟩
      simpa [counterLacks] using h2
    · simp only [counterIncr, if_neg hpr]
      simp only [counterLacks, List.all_cons, Bool.and_eq_true,
        decide_eq_true_eq]
      refine ⟨h1, ?_⟩
      have h3 := ih (by simpa [counterLacks] using h2)
      simpa [counterLacks] using h3

theorem applyFixes_lacks (T : List Char) (r : Rule) :
    ∀ (fixes : List (Rule × Fix)) (st : PassState),
      (∀ p ∈ fixes, p.1 ≠ r) → counterLacks st.fixed r = true →
      counterLacks (applyFixes T fixes st).fixed r = true := by
  intro fixes
  induction fixes with
  | nil =>
    intro st _ h
    exact h
  | cons p rest ih =>
    obtain ⟨pr, fx⟩ := p
    intro st hne h
    have hpr : pr ≠ r := hne (pr, fx) (List.mem_cons_self _ _)
    have hrest : ∀ q ∈ rest, q.1 ≠ r := fun q hq =>
      hne q (List.mem_cons_of_mem _ hq)
    rw [applyFixes]
    simp only []
    split
    · exact h
    · refine ih _ hrest ?_
      split
      · show counterLacks (counterIncr st.fixed pr) r = true
        exact counterIncr_lacks r pr hpr _ h
      · show counterLacks (counterIncr st.fixed pr) r = true
        exact counterIncr_lacks r pr hpr _ h

theorem gated_flatten_kind (f : Rule → List (TextRange × Option Fix))
    (rules config : List Rule) (d : Diagnostic)
    (hd : d ∈ (rules.map fun r =>
      if r ∈ config then tagDiags r (f r) else []).flatten) :
    d.kind ∈ config := by
  rw [List.mem_flatten] at hd
  obtain ⟨l, hl, hdl⟩ := hd
  rw [List.mem_map] at hl
  obtain ⟨r, hr, rfl⟩ := hl
  by_cases hc : r ∈ config
  · rw [if_pos hc] at hdl
    simp only [tagDiags, List.mem_map] at hdl
    obtain ⟨p, hp, rfl⟩ := hdl
    exact hc
  · rw [if_neg hc] at hdl
    simp at hdl

theorem tokenPhase_kind (evalTok : TokEval) (doc : Doc) (rules : List Rule)
    (token : Token) (d : Diagnostic)
    (hd : d ∈ tokenPhase evalTok doc rules token) : d.kind ∈ rules := by
  unfold tokenPhase at hd
  by_cases h1 : token.kind = TokenKind.Whitespace
      ∨ token.kind = TokenKind.Punctuation
  · rw [if_pos h1] at hd
    simp at hd
  · rw [if_neg h1] at hd
    by_cases h2 : token.kind = TokenKind.GreekWord
    · rw [if_pos h2] at hd
      unfold check_token_with_context at hd
      exact gated_flatten_kind _ tokenRules rules d hd
    · rw [if_neg h2] at hd
      by_cases h3 : Rule.MixedScripts ∈ rules
      · rw [if_pos h3] at hd
        simp only [tagDiags, List.mem_map] at hd
        obtain ⟨p, hp, rfl⟩ := hd
        exact h3
      · rw [if_neg h3] at hd
        simp at hd

theorem mem_foldl_append {α β : Type _} (g : β → List α) :
    ∀ (l : List β) (acc : List α) (d : α),
      d ∈ l.foldl (fun a t => a ++ g t) acc → d ∈ acc ∨ ∃ t ∈ l, d ∈ g t := by
  intro l
  induction l with
  | nil =>
    intro acc d h
    exact Or.inl h
  | cons b bs ih =>
    intro acc d h
    simp only [List.foldl_cons] at h
    rcases ih _ _ h with h' | h'
    · rcases List.mem_append.mp h' with h'' | h''
      · exact Or.inl h''
      · exact Or.inr ⟨b, List.mem_cons_self _ _, h''⟩
    · obtain ⟨t, ht, hdt⟩ := h'
      exact Or.inr ⟨t, List.mem_cons_of_mem _ ht, hdt⟩

/-- Every diagnostic produced by `check` carries the kind of an enabled rule:
each rule evaluation in the source is gated on `config.contains` and pushes
diagnostics of its own kind. -/
theorem check_kind_mem (evalTok : TokEval) (evalRaw : RawEval)
    (text : List Char) (config : List Rule) (d : Diagnostic)
    (hd : d ∈ check evalTok evalRaw text config) : d.kind ∈ config := by
  unfold check checkInstr at hd
  simp only [] at hd
  by_cases he : (config.filter Rule.requires_tokenizing).isEmpty
  · rw [if_pos he] at hd
    simp only [] at hd
    unfold check_raw at hd
    exact gated_flatten_kind _ rawRules config d hd
  · rw [if_neg he] at hd
    simp only [] at hd
    rcases List.mem_append.mp hd with h | h
    · unfold check_raw at h
      exact gated_flatten_kind _ rawRules config d h
    · rcases mem_foldl_append _ _ _ _ h with h' | h'
      · simp at h'
      · obtain ⟨t, _, hdt⟩ := h'
        have hm := tokenPhase_kind _ _ _ _ _ hdt
        exact (List.mem_filter.mp hm).1

theorem sortFixes_kind_mem (l : List Diagnostic) (config : List Rule)
    (hl : ∀ dg ∈ l, dg.kind ∈ config) (p : Rule × Fix)
    (hp : p ∈ sortFixes (l.filterMap fun d => d.fix.map fun f => (d.kind, f))) :
    p.1 ∈ config := by
  unfold sortFixes at hp
  rw [List.mem_mergeSort] at hp
  rw [List.mem_filterMap] at hp
  obtain ⟨dg, hdg, hmap⟩ := hp
  obtain ⟨f, _, hfp⟩ := Option.map_eq_some'.mp hmap
  subst hfp
  exact hl dg hdg

theorem fixLoop_lacks (evalTok : TokEval) (evalRaw : RawEval)
    (config : List Rule) (r : Rule) (hr : r ∉ config) :
    ∀ (fuel : Nat) (st : FixState), counterLacks st.fixed r = true →
      counterLacks (fixLoop evalTok evalRaw config fuel st).fixed r = true := by
  intro fuel
  induction fuel with
  | zero =>
    intro st h
    exact h
  | succ fuel ih =>
    intro st h
    rw [fixLoop]
    split
    · exact h
    · simp only []
      have hfix : ∀ p ∈ sortFixes
          (((check evalTok evalRaw st.transformed config).filter
            fun d => d.fix.isSome).filterMap
              fun d => d.fix.map fun f => (d.kind, f)),
          p.1 ≠ r := by
        intro p hp hc
        have hmem := sortFixes_kind_mem _ config
          (fun dg hdg => check_kind_mem evalTok evalRaw st.transformed config dg
            (List.mem_filter.mp hdg).1) p hp
        exact hr (hc ▸ hmem)
      split
      · exact applyFixes_lacks st.transformed r _ _ hfix h
      · exact ih _ (applyFixes_lacks st.transformed r _ _ hfix h)

/-- C9: `Rule::DuplicatedWord` has `has_fix() == false`, so the fixer's
preprocessing filters it from the configuration before the loop; since every
diagnostic `check` produces carries an enabled rule's kind and the counter is
bumped only when a fix is applied, the returned per-rule counter never
contains a `DuplicatedWord` entry — `fix` never applies a `DuplicatedWord`
fix. -/
theorem fix_never_duplicated_word :
    Rule.has_fix Rule.DuplicatedWord = false
    ∧ ∀ (evalTok : TokEval) (evalRaw : RawEval) (text : List Char)
        (config : List Rule),
        counterLacks (fix evalTok evalRaw text config).2.2
          Rule.DuplicatedWord = true := by
  refine ⟨rfl, ?_⟩
  intro evalTok evalRaw text config
  show counterLacks (fixLoop evalTok evalRaw (config.filter Rule.has_fix)
    MAX_ITERATIONS ⟨text, [], [], [], 0⟩).fixed Rule.DuplicatedWord = true
  apply fixLoop_lacks
  · intro hmem
    have hhf := (List.mem_filter.mp hmem).2
    exact absurd hhf (by decide)
  · rfl

end Grs
